import Mathlib

/-!
# Verification of the AITA-Data-Analysis sampling system

A shallow embedding of the sampling / stratification pipeline of the
AITA-Data-Analysis repository, together with proofs of the specified
properties.  The repository ships a sampling configuration file
(`config/sampling_config.yaml`), a README documenting the sampling
strategy, and a data-loading notebook (`reading_data.ipynb`); the
sampling components themselves (content filter, verdict extractor,
stratifier, oversampler, comment aggregator) are modelled from the
specification, faithful to its wording, as noted on each definition.
-/

namespace AITA

/-! ## Data model

Mirrors the data schema documented in the README:
submissions `id,submission_id,title,selftext,created_utc,permalink,score`
and comments `id,submission_id,message,comment_id,parent_id,created_utc,score`.
`selftext` / `message` are nullable text values. -/

structure Submission where
  id : Nat
  submission_id : String
  title : String
  selftext : Option String
  created_utc : Int
  permalink : String
  score : Int
deriving DecidableEq, Repr

structure Comment where
  id : Nat
  submission_id : String
  message : Option String
  comment_id : String
  parent_id : String
  created_utc : Int
  score : Int
deriving DecidableEq, Repr

/-! ## Content Filter

Modelled from the spec: the content filter of `sample_data.py` (not under
`src/`).  Given a text value and a maximum character count it returns true
iff the text is non-null, non-empty and its length is at most the maximum;
a missing/null text is filtered out, not treated as zero-length. -/

def contentFilter (text : Option String) (maxChars : Nat) : Bool :=
  match text with
  | none => false
  | some t => !t.isEmpty && decide (t.length ≤ maxChars)

/-! ## Verdict Extractor

Modelled from the spec: the pattern-based verdict classifier of
`extract_verdicts.py` (not under `src/`).  Comment text is lowercased and
split into alphanumeric tokens (token-boundary matching); the four verdict
categories are tried in a fixed scan order, each matching either as its
acronym token or as its equivalent full phrase; the first match wins and
`none` is returned when no pattern matches. -/

inductive Verdict where
  | YTA | NTA | ESH | NAH | none
deriving DecidableEq, Repr

/-- Maximal alphanumeric runs of the lowercased text, accumulated in
`cur` (reversed). -/
def tokensAux : List Char → List Char → List (List Char)
  | [], cur => if cur.isEmpty then [] else [cur.reverse]
  | c :: cs, cur =>
    if c.isAlphanum then tokensAux cs (c.toLower :: cur)
    else if cur.isEmpty then tokensAux cs []
    else cur.reverse :: tokensAux cs []

def tokenize (s : String) : List (List Char) := tokensAux s.toList []

def acronymToken : Verdict → List Char
  | .YTA => "yta".toList
  | .NTA => "nta".toList
  | .ESH => "esh".toList
  | .NAH => "nah".toList
  | .none => []

def phraseTokens : Verdict → List (List Char)
  | .YTA => ["you".toList, "re".toList, "the".toList, "asshole".toList]
  | .NTA => ["not".toList, "the".toList, "asshole".toList]
  | .ESH => ["everyone".toList, "sucks".toList, "here".toList]
  | .NAH => ["no".toList, "assholes".toList, "here".toList]
  | .none => []

/-- `needle` occurs as a consecutive run inside the token list. -/
def isInfixTokens (needle : List (List Char)) : List (List Char) → Bool
  | [] => needle.isEmpty
  | t :: ts => needle.isPrefixOf (t :: ts) || isInfixTokens needle ts

/-- A category matches when its acronym occurs as a whole token or its
full phrase occurs as a consecutive run of tokens; the pseudo-category
`none` never matches. -/
def matchesVerdict (v : Verdict) (toks : List (List Char)) : Bool :=
  match v with
  | .none => false
  | _ => toks.contains (acronymToken v) || isInfixTokens (phraseTokens v) toks

/-- Fixed scan order of the four verdict categories. -/
def scanOrder : List Verdict := [.YTA, .NTA, .ESH, .NAH]

def scanIdx : Verdict → Nat
  | .YTA => 0
  | .NTA => 1
  | .ESH => 2
  | .NAH => 3
  | .none => 4

/-- First category of the scan order whose pattern matches, else `none`. -/
def extractVerdict (text : String) : Verdict :=
  (scanOrder.find? (fun v => matchesVerdict v (tokenize text))).getD .none

/-! ## Dominant verdict

Modelled from the spec: the per-submission `VerdictCounts` tally and its
argmax with the fixed tie-break priority NTA > YTA > ESH > NAH > none
(`stratified_aita_sample.py`, not under `src/`). -/

structure VerdictCounts where
  nta : Nat
  yta : Nat
  esh : Nat
  nah : Nat
  noneCount : Nat
deriving DecidableEq, Repr

def vcount (c : VerdictCounts) : Verdict → Nat
  | .NTA => c.nta
  | .YTA => c.yta
  | .ESH => c.esh
  | .NAH => c.nah
  | .none => c.noneCount

/-- Fixed tie-break priority order. -/
def tieBreakOrder : List Verdict := [.NTA, .YTA, .ESH, .NAH, .none]

def prioIdx : Verdict → Nat
  | .NTA => 0
  | .YTA => 1
  | .ESH => 2
  | .NAH => 3
  | .none => 4

def maxCount (c : VerdictCounts) : Nat :=
  (tieBreakOrder.map (vcount c)).foldr Nat.max 0

/-- The dominant verdict: the first category in the priority order whose
count attains the maximum. -/
def dominantVerdict (c : VerdictCounts) : Verdict :=
  (tieBreakOrder.find? (fun v => vcount c v = maxCount c)).getD .none

/-- Tally of extracted verdicts over a list of comment messages. -/
def tallyVerdicts (msgs : List String) : VerdictCounts :=
  { nta := msgs.countP (fun m => extractVerdict m = Verdict.NTA)
    yta := msgs.countP (fun m => extractVerdict m = Verdict.YTA)
    esh := msgs.countP (fun m => extractVerdict m = Verdict.ESH)
    nah := msgs.countP (fun m => extractVerdict m = Verdict.NAH)
    noneCount := msgs.countP (fun m => extractVerdict m = Verdict.none) }

/-! ## Engagement Stratifier

Modelled from the spec: the engagement stratification of
`sample_data.py` (not under `src/`).  The five ordered tier labels come
from the `engagement.tiers` block of `config/sampling_config.yaml`
(source file).  Quintile boundaries are computed from the score
distribution of the given filtered submission set using standard linear
quantile interpolation; a score is assigned the tier of the quantile
bucket it falls in, buckets closed at their lower boundary and open at
the upper, the topmost bucket having no upper cutoff. -/

inductive Tier where
  | veryLow | low | medium | high | veryHigh
deriving DecidableEq, Repr

def allTiers : List Tier := [.veryLow, .low, .medium, .high, .veryHigh]

/-- Tier labels as listed in `config/sampling_config.yaml`. -/
def tierLabel : Tier → String
  | .veryLow => "Very Low"
  | .low => "Low"
  | .medium => "Medium"
  | .high => "High"
  | .veryHigh => "Very High"

def tierLabels : List String := ["Very Low", "Low", "Medium", "High", "Very High"]

/-- The scores of the submission set, ascending. -/
def sortedScores (subs : List Submission) : List ℚ :=
  List.insertionSort (· ≤ ·) (subs.map (fun s => (s.score : ℚ)))

/-- Linear-interpolation quantile of a sorted nonempty list
(`numpy`-style: position `q·(n−1)`, interpolating between the two
neighbouring order statistics). -/
def quantileAt (xs : List ℚ) (q : ℚ) : ℚ :=
  let n := xs.length
  let h := q * ((n : ℚ) - 1)
  let i : Nat := (⌊h⌋).toNat
  let lo := xs.getD i 0
  let hi := xs.getD (i + 1) lo
  lo + (h - ((⌊h⌋ : ℤ) : ℚ)) * (hi - lo)

structure Boundaries where
  b1 : ℚ
  b2 : ℚ
  b3 : ℚ
  b4 : ℚ
deriving DecidableEq, Repr

/-- Quintile boundaries recomputed from the score distribution of the
given submission set. -/
def quintileBoundaries (subs : List Submission) : Boundaries :=
  let xs := sortedScores subs
  ⟨quantileAt xs (1/5), quantileAt xs (2/5), quantileAt xs (3/5), quantileAt xs (4/5)⟩

/-- Tier of a score given the boundaries: each bucket is closed at its
lower boundary and open at the upper one; the topmost bucket has no
upper cutoff. -/
def tierOfScore (b : Boundaries) (x : ℚ) : Tier :=
  if x < b.b1 then .veryLow
  else if x < b.b2 then .low
  else if x < b.b3 then .medium
  else if x < b.b4 then .high
  else .veryHigh

/-- Tier assignment of a submission, boundaries recomputed from the very
submission set being stratified. -/
def assignTier (subs : List Submission) (s : Submission) : Tier :=
  tierOfScore (quintileBoundaries subs) (s.score : ℚ)

/-- Output of the Stratifier: a mapping from every tier label (in order,
empty tiers included) to the ordered list of member submission ids. -/
def stratifyEngagement (subs : List Submission) : List (String × List String) :=
  allTiers.map (fun t =>
    (tierLabel t,
      (subs.filter (fun s => decide (assignTier subs s = t))).map
        (fun s => s.submission_id)))

/-! ## Oversampler

Modelled from the spec: the oversampling stage of `sample_data.py` (not
under `src/`).  Given target size N, oversample factor F and S strata, a
per-stratum draw count of ceil(N·F / S) is computed (equal allocation);
that many identifiers are drawn from each stratum without replacement in
original (insertion) order; an undersized stratum yields all its members
and the shortfall is recorded in the run metadata — not an error. -/

def perStratumCount (targetN oversampleFactor strataCount : Nat) : Nat :=
  (targetN * oversampleFactor + strataCount - 1) / strataCount

/-- Draw `ceil(N·F/S)` members from each stratum, in insertion order,
without replacement. -/
def oversample (targetN oversampleFactor : Nat)
    (strata : List (String × List String)) : List (String × List String) :=
  let k := perStratumCount targetN oversampleFactor strata.length
  strata.map (fun p => (p.1, p.2.take k))

/-- Recorded per-stratum shortfall (requested minus drawn). -/
def shortfalls (targetN oversampleFactor : Nat)
    (strata : List (String × List String)) : List (String × Nat) :=
  let k := perStratumCount targetN oversampleFactor strata.length
  strata.map (fun p => (p.1, k - p.2.length))

/-- Total number of items drawn across all strata. -/
def totalDrawn (targetN oversampleFactor : Nat)
    (strata : List (String × List String)) : Nat :=
  ((oversample targetN oversampleFactor strata).map (fun p => p.2.length)).sum

/-! ## Comment Aggregator

Modelled from the spec: the top-K comment selection of `sample_data.py`
(not under `src/`).  For a submission identifier the filtered comments
are ranked by score descending, ties broken by earliest creation time
and then by comment identifier; the first K are returned.
`comment_count` is the number of filtered comments of the submission and
`avg_comment_score` their arithmetic mean, absent when the count is
zero. -/

/-- The deterministic ranking: higher score first, then earlier creation
time, then smaller comment identifier. -/
def commentBefore (a b : Comment) : Prop :=
  b.score < a.score ∨ (a.score = b.score ∧
    (a.created_utc < b.created_utc ∨
      (a.created_utc = b.created_utc ∧ a.comment_id.toList ≤ b.comment_id.toList)))

instance : DecidableRel commentBefore := fun a b => by
  unfold commentBefore
  infer_instance

instance : IsTotal Comment commentBefore := by
  constructor
  intro a b
  rcases lt_trichotomy a.score b.score with h | h | h
  · exact Or.inr (Or.inl h)
  · rcases lt_trichotomy a.created_utc b.created_utc with h2 | h2 | h2
    · exact Or.inl (Or.inr ⟨h, Or.inl h2⟩)
    · rcases le_total a.comment_id.toList b.comment_id.toList with h3 | h3
      · exact Or.inl (Or.inr ⟨h, Or.inr ⟨h2, h3⟩⟩)
      · exact Or.inr (Or.inr ⟨h.symm, Or.inr ⟨h2.symm, h3⟩⟩)
    · exact Or.inr (Or.inr ⟨h.symm, Or.inl h2⟩)
  · exact Or.inl (Or.inl h)

instance : IsTrans Comment commentBefore := by
  constructor
  intro a b c hab hbc
  rcases hab with h1 | ⟨e1, t1⟩
  · rcases hbc with h2 | ⟨e2, t2⟩
    · exact Or.inl (by omega)
    · exact Or.inl (by omega)
  · rcases hbc with h2 | ⟨e2, t2⟩
    · exact Or.inl (by omega)
    · refine Or.inr ⟨by omega, ?_⟩
      rcases t1 with l1 | ⟨f1, i1⟩
      · rcases t2 with l2 | ⟨f2, i2⟩
        · exact Or.inl (by omega)
        · exact Or.inl (by omega)
      · rcases t2 with l2 | ⟨f2, i2⟩
        · exact Or.inl (by omega)
        · exact Or.inr ⟨by omega, le_trans i1 i2⟩

/-- The filtered comments of one submission. -/
def commentsFor (sid : String) (comments : List Comment) : List Comment :=
  comments.filter (fun c => decide (c.submission_id = sid))

/-- Top-K comments of a submission under the deterministic ranking. -/
def topComments (K : Nat) (sid : String) (comments : List Comment) : List Comment :=
  (List.insertionSort commentBefore (commentsFor sid comments)).take K

/-- Number of filtered comments of the submission. -/
def commentCount (sid : String) (comments : List Comment) : Nat :=
  (commentsFor sid comments).length

/-- Arithmetic mean of the filtered comment scores, absent when there
are none (never a division by zero). -/
def avgCommentScore (sid : String) (comments : List Comment) : Option ℚ :=
  let mine := commentsFor sid comments
  if mine.length = 0 then Option.none
  else some ((mine.map (fun c => (c.score : ℚ))).sum / (mine.length : ℚ))

/-- Concrete comment used in witnesses and examples. -/
def sampleCom (cid : String) (created sc : Int) : Comment :=
  { id := 0
    submission_id := "s1"
    message := some "m"
    comment_id := cid
    parent_id := "p"
    created_utc := created
    score := sc }

/-- Concrete submission used in witnesses and examples. -/
def sampleSub (sid : String) (sc : Int) : Submission :=
  { id := 0
    submission_id := sid
    title := "t"
    selftext := some "body"
    created_utc := 0
    permalink := "p"
    score := sc }

/-! ## Sampling configuration

The three presets and the defaults block shipped in
`config/sampling_config.yaml`, values transcribed from the source file.
The numeric fields use `Int` so that the validity constraints below are
not vacuous. -/

structure SamplingConfig where
  max_submission_chars : Int
  max_comment_chars : Int
  target_n : Int
  oversample_factor : Int
  comments_per_submission : Int
deriving DecidableEq, Repr

def conservative : SamplingConfig :=
  { max_submission_chars := 1000
    max_comment_chars := 300
    target_n := 30
    oversample_factor := 5
    comments_per_submission := 3 }

def standard : SamplingConfig :=
  { max_submission_chars := 2000
    max_comment_chars := 500
    target_n := 50
    oversample_factor := 5
    comments_per_submission := 3 }

def large : SamplingConfig :=
  { max_submission_chars := 3000
    max_comment_chars := 800
    target_n := 100
    oversample_factor := 5
    comments_per_submission := 3 }

def defaults : SamplingConfig :=
  { max_submission_chars := 2000
    max_comment_chars := 500
    target_n := 50
    oversample_factor := 5
    comments_per_submission := 3 }

/-- Output prefix of the defaults block of the configuration file. -/
def defaultOutputPrefix : String := "sampled"

/-- Modelled from the spec: the configuration validity constraints behind
the fatal `ConfigurationError` branch (`target_n > 0`,
`oversample_factor ≥ 1`, `comments_per_submission ≥ 0`, positive
character limits); the validating code is not under `src/`. -/
def validConfig (c : SamplingConfig) : Prop :=
  0 < c.target_n ∧ 1 ≤ c.oversample_factor ∧ 0 ≤ c.comments_per_submission ∧
    0 < c.max_submission_chars ∧ 0 < c.max_comment_chars

instance : DecidablePred validConfig := fun c => by
  unfold validConfig; infer_instance

/-- Modelled from the spec: fatal configuration validation performed
before any data processing begins. -/
def validateConfig (c : SamplingConfig) : Except String SamplingConfig :=
  if validConfig c then Except.ok c else Except.error "ConfigurationError"

/-! ## CSV export (`reading_data.ipynb`)

The notebook reads the `submission` and `comment` tables from SQLite and
writes them with `to_csv(..., index=False)`.  The tables are modelled as
a header plus string-cell rows; `toCsv` renders RFC-4180 style (cells
containing a comma, quote or newline are quoted, with quotes doubled),
optionally prepending a pandas-style index column; `readCsv` parses such
text back. -/

structure DataFrame where
  header : List String
  rows : List (List String)
deriving DecidableEq, Repr

/-- Columns of the `submission` table (README schema / notebook output). -/
def subColumns : List String :=
  ["id", "submission_id", "title", "selftext", "created_utc", "permalink", "score"]

/-- Columns of the `comment` table (README schema / notebook output). -/
def comColumns : List String :=
  ["id", "submission_id", "message", "comment_id", "parent_id", "created_utc", "score"]

def needsQuote (s : List Char) : Bool :=
  s.any (fun c => c == ',' || c == '"' || c == '\n')

def dupQuotes : List Char → List Char
  | [] => []
  | c :: cs => if c = '"' then '"' :: '"' :: dupQuotes cs else c :: dupQuotes cs

def renderCell (s : List Char) : List Char :=
  if needsQuote s then '"' :: (dupQuotes s ++ ['"']) else s

def renderRow : List (List Char) → List Char
  | [] => []
  | [c] => renderCell c
  | c :: cs => renderCell c ++ ',' :: renderRow cs

def renderRows : List (List (List Char)) → List Char
  | [] => []
  | [r] => renderRow r
  | r :: rs => renderRow r ++ '\n' :: renderRows rs

/-- `to_csv`: header then rows; with `index := true` a pandas-style index
column is prepended, with `index := false` (the notebook's call) it is
not. -/
def toCsv (df : DataFrame) (index : Bool) : List Char :=
  let table :=
    if index then
      ("" :: df.header) :: df.rows.mapIdx (fun i r => toString i :: r)
    else df.header :: df.rows
  renderRows (table.map (fun r => r.map (fun s => s.toList)))

/-- Parse the inside of a quoted cell (after the opening quote), undoing
doubled quotes; returns the cell and the remaining input after the
closing quote. -/
def parseQuoted : List Char → List Char × List Char
  | [] => ([], [])
  | c :: cs =>
    if c = '"' then
      match cs with
      | [] => ([], [])
      | c2 :: cs2 =>
        if c2 = '"' then
          let p := parseQuoted cs2
          ('"' :: p.1, p.2)
        else ([], cs)
    else
      let p := parseQuoted cs
      (c :: p.1, p.2)

/-- Parse an unquoted cell: everything up to the next comma or newline. -/
def parseRaw : List Char → List Char × List Char
  | [] => ([], [])
  | c :: cs =>
    if c = ',' ∨ c = '\n' then ([], c :: cs)
    else
      let p := parseRaw cs
      (c :: p.1, p.2)

def parseField (cs : List Char) : List Char × List Char :=
  match cs with
  | [] => ([], [])
  | c :: rest => if c = '"' then parseQuoted rest else parseRaw (c :: rest)

/-- Parse one record (comma-separated fields); fuel bounds the number of
fields. -/
def parseRecordF : Nat → List Char → List (List Char) × List Char
  | 0, cs => ([], cs)
  | fuel + 1, cs =>
    let p := parseField cs
    match p.2 with
    | [] => ([p.1], [])
    | c :: r2 =>
      if c = ',' then
        let q := parseRecordF fuel r2
        (p.1 :: q.1, q.2)
      else ([p.1], c :: r2)

/-- Parse newline-separated records; fuel bounds the number of records. -/
def parseFileF : Nat → List Char → List (List (List Char))
  | 0, _ => []
  | fuel + 1, cs =>
    let p := parseRecordF (cs.length + 1) cs
    match p.2 with
    | [] => [p.1]
    | c :: r2 => if c = '\n' then p.1 :: parseFileF fuel r2 else [p.1]

def parseRecord (cs : List Char) : List (List Char) × List Char :=
  parseRecordF (cs.length + 1) cs

def parseFile (cs : List Char) : List (List (List Char)) :=
  parseFileF (cs.length + 1) cs

/-- `read_csv`: the parsed records as string cells. -/
def readCsv (cs : List Char) : List (List String) :=
  (parseFile cs).map (fun r => r.map (fun c => String.mk c))

end AITA

/-! ## Theorems for the claims -/

open AITA

theorem isEmpty_eq_false_iff (s : String) : s.isEmpty = false ↔ s ≠ "" := by
  rw [Bool.eq_false_iff]
  exact not_congr (String.isEmpty_iff s)

/-- **C7.** The Content Filter returns true iff the text is non-null,
non-empty and its length is at most `max_chars`; a text of length exactly
`max_chars` passes, one of length `max_chars + 1` fails, and a
missing/null text is excluded rather than treated as zero-length. -/
theorem contentFilter_spec :
    (∀ (t : Option String) (m : Nat),
      contentFilter t m = true ↔ ∃ s, t = some s ∧ s ≠ "" ∧ s.length ≤ m) ∧
    (∀ (s : String) (m : Nat), s ≠ "" → s.length = m →
      contentFilter (some s) m = true) ∧
    (∀ (s : String) (m : Nat), s.length = m + 1 →
      contentFilter (some s) m = false) ∧
    (∀ m : Nat, contentFilter none m = false) := by
  refine ⟨?_, ?_, ?_, ?_⟩
  · intro t m
    cases t with
    | none => simp [contentFilter]
    | some s =>
      simp only [contentFilter, Bool.and_eq_true, Bool.not_eq_true',
        decide_eq_true_eq]
      constructor
      · rintro ⟨hne, hle⟩
        exact ⟨s, rfl, (isEmpty_eq_false_iff s).mp hne, hle⟩
      · rintro ⟨s', hs', hne, hle⟩
        cases hs'
        exact ⟨(isEmpty_eq_false_iff s).mpr hne, hle⟩
  · intro s m hne hlen
    simp [contentFilter, (isEmpty_eq_false_iff s).mpr hne, hlen]
  · intro s m hlen
    simp [contentFilter, hlen]
  · intro m; rfl

/-- Witness for `contentFilter_spec` at concrete inputs. -/
theorem contentFilter_spec_witness :
    contentFilter (some "abc") 3 = true ∧ contentFilter (some "abcd") 3 = false := by
  refine ⟨?_, ?_⟩
  · exact contentFilter_spec.2.1 "abc" 3 (by decide) (by decide)
  · exact contentFilter_spec.2.2.1 "abcd" 3 (by decide)

/-- **C9.** Every configuration shipped in the sampling configuration
file — the conservative, standard and large presets and the defaults
block — satisfies the validity constraints (`target_n > 0`,
`oversample_factor ≥ 1`, `comments_per_submission ≥ 0`, positive
character limits), so validation succeeds and the fatal
`ConfigurationError` branch is not taken for any of them. -/
theorem shippedConfigs_valid :
    validateConfig conservative = Except.ok conservative ∧
    validateConfig standard = Except.ok standard ∧
    validateConfig large = Except.ok large ∧
    validateConfig defaults = Except.ok defaults ∧
    (validConfig conservative ∧ validConfig standard ∧
      validConfig large ∧ validConfig defaults) := by
  refine ⟨?_, ?_, ?_, ?_, by decide, by decide, by decide, by decide⟩ <;>
    · simp only [validateConfig]
      rw [if_pos (by decide)]

/-- `extractVerdict` unfolded to the fixed-order cascade of matches. -/
theorem extractVerdict_eq_cascade (t : String) :
    extractVerdict t =
      (if matchesVerdict .YTA (tokenize t) then Verdict.YTA
       else if matchesVerdict .NTA (tokenize t) then Verdict.NTA
       else if matchesVerdict .ESH (tokenize t) then Verdict.ESH
       else if matchesVerdict .NAH (tokenize t) then Verdict.NAH
       else Verdict.none) := by
  rcases h1 : matchesVerdict .YTA (tokenize t) <;>
    rcases h2 : matchesVerdict .NTA (tokenize t) <;>
      rcases h3 : matchesVerdict .ESH (tokenize t) <;>
        rcases h4 : matchesVerdict .NAH (tokenize t) <;>
          simp [extractVerdict, scanOrder, List.find?, h1, h2, h3, h4]

/-- **C4.** The Verdict Extractor is a function of the comment text alone
(equal texts get equal categories); it returns `none` exactly when no
category pattern matches; when some pattern matches it returns a matching
category that is first in the fixed scan order YTA, NTA, ESH, NAH under
case-insensitive token-boundary matching; an acronym embedded as a
substring of an unrelated word (such as `nta` inside `contestant`) does
not match, while a whole-token acronym such as in "NTA, clearly." does. -/
theorem extractVerdict_spec :
    (∀ t₁ t₂ : String, t₁ = t₂ → extractVerdict t₁ = extractVerdict t₂) ∧
    (∀ t : String, extractVerdict t = Verdict.none ↔
      ∀ v, matchesVerdict v (tokenize t) = false) ∧
    (∀ (t : String) (v : Verdict), matchesVerdict v (tokenize t) = true →
      matchesVerdict (extractVerdict t) (tokenize t) = true ∧
      scanIdx (extractVerdict t) ≤ scanIdx v) ∧
    extractVerdict "NTA, clearly." = Verdict.NTA ∧
    extractVerdict "the contestant did nothing wrong" = Verdict.none := by
  refine ⟨fun t₁ t₂ h => by rw [h], ?_, ?_, by decide, by decide⟩
  · intro t
    rw [extractVerdict_eq_cascade]
    split_ifs with h1 h2 h3 h4
    · exact iff_of_false (by simp) fun h => by simpa [h1] using h .YTA
    · exact iff_of_false (by simp) fun h => by simpa [h2] using h .NTA
    · exact iff_of_false (by simp) fun h => by simpa [h3] using h .ESH
    · exact iff_of_false (by simp) fun h => by simpa [h4] using h .NAH
    · refine iff_of_true rfl fun v => ?_
      cases v
      · simpa using h1
      · simpa using h2
      · simpa using h3
      · simpa using h4
      · rfl
  · intro t v hv
    rw [extractVerdict_eq_cascade]
    split_ifs with h1 h2 h3 h4
    · exact ⟨h1, by cases v <;> simp_all [scanIdx, matchesVerdict]⟩
    · refine ⟨h2, ?_⟩
      cases v <;> simp_all [scanIdx, matchesVerdict]
    · refine ⟨h3, ?_⟩
      cases v <;> simp_all [scanIdx, matchesVerdict]
    · refine ⟨h4, ?_⟩
      cases v <;> simp_all [scanIdx, matchesVerdict]
    · exfalso
      cases v <;> simp_all [matchesVerdict]

/-- Witness for `extractVerdict_spec` at a concrete input. -/
theorem extractVerdict_spec_witness :
    matchesVerdict (extractVerdict "surely nta here") (tokenize "surely nta here") = true ∧
    scanIdx (extractVerdict "surely nta here") ≤ scanIdx Verdict.NTA := by
  exact extractVerdict_spec.2.2.1 "surely nta here" Verdict.NTA (by decide)

/-- `maxCount` as the nested maximum of the five counts. -/
theorem maxCount_eq (c : VerdictCounts) :
    maxCount c = max c.nta (max c.yta (max c.esh (max c.nah c.noneCount))) := by
  show max c.nta (max c.yta (max c.esh (max c.nah (max c.noneCount 0)))) = _
  rw [Nat.max_zero]

/-- The maximum count is attained by one of the five categories. -/
theorem maxCount_attained (c : VerdictCounts) :
    maxCount c = c.nta ∨ maxCount c = c.yta ∨ maxCount c = c.esh ∨
      maxCount c = c.nah ∨ maxCount c = c.noneCount := by
  rw [maxCount_eq]
  rcases max_choice c.nta (max c.yta (max c.esh (max c.nah c.noneCount))) with h | h
  · exact Or.inl h
  rw [h]
  rcases max_choice c.yta (max c.esh (max c.nah c.noneCount)) with h2 | h2
  · exact Or.inr (Or.inl h2)
  rw [h2]
  rcases max_choice c.esh (max c.nah c.noneCount) with h3 | h3
  · exact Or.inr (Or.inr (Or.inl h3))
  rw [h3]
  rcases max_choice c.nah c.noneCount with h4 | h4
  · exact Or.inr (Or.inr (Or.inr (Or.inl h4)))
  · exact Or.inr (Or.inr (Or.inr (Or.inr h4)))

/-- Every category count is at most `maxCount`. -/
theorem vcount_le_maxCount (c : VerdictCounts) (v : Verdict) :
    vcount c v ≤ maxCount c := by
  rw [maxCount_eq]
  cases v <;> simp only [vcount]
  · exact le_max_of_le_right (le_max_left _ _)
  · exact le_max_left _ _
  · exact le_max_of_le_right (le_max_of_le_right (le_max_left _ _))
  · exact le_max_of_le_right (le_max_of_le_right (le_max_of_le_right (le_max_left _ _)))
  · exact le_max_of_le_right (le_max_of_le_right (le_max_of_le_right (le_max_right _ _)))

/-- `dominantVerdict` unfolded to the fixed-priority cascade. -/
theorem dominantVerdict_eq_cascade (c : VerdictCounts) :
    dominantVerdict c =
      (if c.nta = maxCount c then Verdict.NTA
       else if c.yta = maxCount c then Verdict.YTA
       else if c.esh = maxCount c then Verdict.ESH
       else if c.nah = maxCount c then Verdict.NAH
       else Verdict.none) := by
  have h5 : ¬(c.nta = maxCount c) → ¬(c.yta = maxCount c) →
      ¬(c.esh = maxCount c) → ¬(c.nah = maxCount c) →
      c.noneCount = maxCount c := by
    intro h1 h2 h3 h4
    rcases maxCount_attained c with h | h | h | h | h
    · exact absurd h.symm h1
    · exact absurd h.symm h2
    · exact absurd h.symm h3
    · exact absurd h.symm h4
    · exact h.symm
  by_cases h1 : c.nta = maxCount c <;>
    by_cases h2 : c.yta = maxCount c <;>
      by_cases h3 : c.esh = maxCount c <;>
        by_cases h4 : c.nah = maxCount c <;>
          (simp [dominantVerdict, tieBreakOrder, List.find?, vcount,
              h1, h2, h3, h4] <;>
            simp [h5 h1 h2 h3 h4])

/-- **C3.** The dominant verdict always attains the maximum count, and
among the categories tied for the maximum it is the one that comes first
in the fixed priority order NTA > YTA > ESH > NAH > none; in particular
counts {NTA:2, YTA:2, ESH:0, NAH:0} resolve to NTA, and when one
category's count strictly exceeds all others the dominant verdict is that
unique argmax category. -/
theorem dominantVerdict_spec :
    (∀ c : VerdictCounts, vcount c (dominantVerdict c) = maxCount c) ∧
    (∀ (c : VerdictCounts) (v : Verdict), vcount c v = maxCount c →
      prioIdx (dominantVerdict c) ≤ prioIdx v) ∧
    dominantVerdict ⟨2, 2, 0, 0, 0⟩ = Verdict.NTA ∧
    (∀ (c : VerdictCounts) (v : Verdict),
      (∀ w, w ≠ v → vcount c w < vcount c v) → dominantVerdict c = v) := by
  have hattain : ∀ c : VerdictCounts, vcount c (dominantVerdict c) = maxCount c := by
    intro c
    rw [dominantVerdict_eq_cascade]
    split_ifs with h1 h2 h3 h4 <;> simp only [vcount]
    · exact h1
    · exact h2
    · exact h3
    · exact h4
    · rcases maxCount_attained c with h | h | h | h | h
      · exact absurd h.symm h1
      · exact absurd h.symm h2
      · exact absurd h.symm h3
      · exact absurd h.symm h4
      · exact h.symm
  have hfirst : ∀ (c : VerdictCounts) (v : Verdict), vcount c v = maxCount c →
      prioIdx (dominantVerdict c) ≤ prioIdx v := by
    intro c v hv
    rw [dominantVerdict_eq_cascade]
    split_ifs with h1 h2 h3 h4 <;>
      cases v <;> simp_all [vcount, prioIdx]
  refine ⟨hattain, hfirst, by decide, ?_⟩
  intro c v hv
  by_contra hne
  have hlt : vcount c (dominantVerdict c) < vcount c v := hv _ hne
  have hle : vcount c v ≤ maxCount c := vcount_le_maxCount c v
  rw [hattain c] at hlt
  exact absurd hlt (not_lt.mpr hle)

theorem getD_eq_get (xs : List ℚ) (d : ℚ) {i : Nat} (h : i < xs.length) :
    xs.getD i d = xs.get ⟨i, h⟩ := by
  simp [List.getD_eq_getElem?_getD, List.getElem?_eq_getElem h]

theorem getD_eq_of_le (xs : List ℚ) (d : ℚ) {i : Nat} (h : xs.length ≤ i) :
    xs.getD i d = d := by
  simp [List.getD_eq_getElem?_getD, List.getElem?_eq_none h]

/-- Linear-interpolation quantiles of a sorted list are monotone in the
quantile position. -/
theorem quantileAt_mono (xs : List ℚ) (hs : List.Sorted (· ≤ ·) xs) (hne : xs ≠ [])
    {q q' : ℚ} (hq0 : 0 ≤ q) (hqq : q ≤ q') (hq1 : q' ≤ 1) :
    quantileAt xs q ≤ quantileAt xs q' := by
  have hn : 0 < xs.length := List.length_pos.mpr hne
  simp only [quantileAt]
  set n := xs.length with hn_def
  set h := q * ((n : ℚ) - 1) with hh_def
  set h' := q' * ((n : ℚ) - 1) with hh'_def
  have hn1 : (0:ℚ) ≤ (n : ℚ) - 1 := by
    have : (1:ℚ) ≤ (n:ℚ) := by exact_mod_cast hn
    linarith
  have hh0 : (0:ℚ) ≤ h := mul_nonneg hq0 hn1
  have hhh : h ≤ h' := mul_le_mul_of_nonneg_right hqq hn1
  have hh1 : h' ≤ (n:ℚ) - 1 := by
    calc h' ≤ 1 * ((n:ℚ) - 1) := mul_le_mul_of_nonneg_right hq1 hn1
    _ = (n:ℚ) - 1 := one_mul _
  have hf0 : 0 ≤ ⌊h⌋ := Int.floor_nonneg.mpr hh0
  have hfm : ⌊h⌋ ≤ ⌊h'⌋ := Int.floor_mono hhh
  have hf0' : 0 ≤ ⌊h'⌋ := le_trans hf0 hfm
  have hub : ⌊h'⌋ ≤ (n : ℤ) - 1 := by
    have hfl := Int.floor_mono hh1
    rwa [show ((n:ℚ) - 1) = (((n:ℤ) - 1 : ℤ) : ℚ) by push_cast; ring,
      Int.floor_intCast] at hfl
  set i := (⌊h⌋).toNat with hi_def
  set i' := (⌊h'⌋).toNat with hi'_def
  have hiz : (i : ℤ) = ⌊h⌋ := Int.toNat_of_nonneg hf0
  have hiz' : (i' : ℤ) = ⌊h'⌋ := Int.toNat_of_nonneg hf0'
  have hii' : i ≤ i' := by omega
  have hi'lt : i' < n := by omega
  have hilt : i < n := lt_of_le_of_lt hii' hi'lt
  have ht0 : (0:ℚ) ≤ h - ((⌊h⌋ : ℤ) : ℚ) := by
    have := Int.floor_le h; linarith
  have ht1 : h - ((⌊h⌋ : ℤ) : ℚ) ≤ 1 := by
    have := Int.lt_floor_add_one h; linarith
  have ht0' : (0:ℚ) ≤ h' - ((⌊h'⌋ : ℤ) : ℚ) := by
    have := Int.floor_le h'; linarith
  rcases eq_or_lt_of_le hii' with heq | hlt
  · -- same interpolation interval
    have hfeq : ((⌊h⌋ : ℤ) : ℚ) = ((⌊h'⌋ : ℤ) : ℚ) := by
      rw [← hiz, ← hiz', heq]
    rw [← heq]
    have htt : h - ((⌊h⌋ : ℤ) : ℚ) ≤ h' - ((⌊h'⌋ : ℤ) : ℚ) := by
      rw [← hfeq]; linarith
    have hdiff : (0:ℚ) ≤ xs.getD (i+1) (xs.getD i 0) - xs.getD i 0 := by
      by_cases hc : i + 1 < n
      · rw [getD_eq_get xs 0 hilt, getD_eq_get xs _ hc]
        have := hs.rel_get_of_lt (a := ⟨i, hilt⟩) (b := ⟨i + 1, hc⟩)
          (by simp [Fin.lt_def])
        linarith
      · rw [getD_eq_of_le xs _ (by omega)]
        simp
    have hmul := mul_le_mul_of_nonneg_right htt hdiff
    linarith
  · -- the primed position is in a later interval
    have hi1le : i + 1 ≤ i' := hlt
    have hi1lt : i + 1 < n := lt_of_le_of_lt hi1le hi'lt
    rw [getD_eq_get xs 0 hilt, getD_eq_get xs _ hi1lt,
      getD_eq_get xs 0 hi'lt]
    have hadj : xs.get ⟨i, hilt⟩ ≤ xs.get ⟨i + 1, hi1lt⟩ :=
      hs.rel_get_of_lt (by simp [Fin.lt_def])
    have hup : xs.get ⟨i + 1, hi1lt⟩ ≤ xs.get ⟨i', hi'lt⟩ := by
      rcases eq_or_lt_of_le hi1le with hE | hL
      · exact le_of_eq (congrArg xs.get (Fin.ext hE))
      · exact hs.rel_get_of_lt (by simpa [Fin.lt_def] using hL)
    have hdiff' : (0:ℚ) ≤ xs.getD (i' + 1) (xs.get ⟨i', hi'lt⟩) - xs.get ⟨i', hi'lt⟩ := by
      by_cases hc : i' + 1 < n
      · rw [getD_eq_get xs _ hc]
        have := hs.rel_get_of_lt (a := ⟨i', hi'lt⟩) (b := ⟨i' + 1, hc⟩)
          (by simp [Fin.lt_def])
        linarith
      · rw [getD_eq_of_le xs _ (by omega)]
        simp
    have hleft : xs.get ⟨i, hilt⟩ +
        (h - ((⌊h⌋ : ℤ) : ℚ)) * (xs.get ⟨i + 1, hi1lt⟩ - xs.get ⟨i, hilt⟩) ≤
        xs.get ⟨i + 1, hi1lt⟩ := by nlinarith
    have hright : xs.get ⟨i', hi'lt⟩ ≤ xs.get ⟨i', hi'lt⟩ +
        (h' - ((⌊h'⌋ : ℤ) : ℚ)) *
          (xs.getD (i' + 1) (xs.get ⟨i', hi'lt⟩) - xs.get ⟨i', hi'lt⟩) := by
      nlinarith
    linarith

/-- A linear-interpolation quantile never exceeds an upper bound of the
list. -/
theorem quantileAt_le (xs : List ℚ) (hs : List.Sorted (· ≤ ·) xs) (hne : xs ≠ [])
    {q : ℚ} (hq0 : 0 ≤ q) (hq1 : q ≤ 1) {y : ℚ} (hy : ∀ x ∈ xs, x ≤ y) :
    quantileAt xs q ≤ y := by
  have hn : 0 < xs.length := List.length_pos.mpr hne
  simp only [quantileAt]
  set n := xs.length with hn_def
  set h := q * ((n : ℚ) - 1) with hh_def
  have hn1 : (0:ℚ) ≤ (n : ℚ) - 1 := by
    have : (1:ℚ) ≤ (n:ℚ) := by exact_mod_cast hn
    linarith
  have hh0 : (0:ℚ) ≤ h := mul_nonneg hq0 hn1
  have hh1 : h ≤ (n:ℚ) - 1 := by
    calc h ≤ 1 * ((n:ℚ) - 1) := mul_le_mul_of_nonneg_right hq1 hn1
    _ = (n:ℚ) - 1 := one_mul _
  have hf0 : 0 ≤ ⌊h⌋ := Int.floor_nonneg.mpr hh0
  have hub : ⌊h⌋ ≤ (n : ℤ) - 1 := by
    have hfl := Int.floor_mono hh1
    rwa [show ((n:ℚ) - 1) = (((n:ℤ) - 1 : ℤ) : ℚ) by push_cast; ring,
      Int.floor_intCast] at hfl
  set i := (⌊h⌋).toNat with hi_def
  have hiz : (i : ℤ) = ⌊h⌋ := Int.toNat_of_nonneg hf0
  have hilt : i < n := by omega
  have ht0 : (0:ℚ) ≤ h - ((⌊h⌋ : ℤ) : ℚ) := by
    have := Int.floor_le h; linarith
  have ht1 : h - ((⌊h⌋ : ℤ) : ℚ) ≤ 1 := by
    have := Int.lt_floor_add_one h; linarith
  rw [getD_eq_get xs 0 hilt]
  have hloy : xs.get ⟨i, hilt⟩ ≤ y := hy _ (xs.get_mem _ _)
  by_cases hc : i + 1 < n
  · rw [getD_eq_get xs _ hc]
    have hadj : xs.get ⟨i, hilt⟩ ≤ xs.get ⟨i + 1, hc⟩ :=
      hs.rel_get_of_lt (by simp [Fin.lt_def])
    have hhiy : xs.get ⟨i + 1, hc⟩ ≤ y := hy _ (xs.get_mem _ _)
    nlinarith
  · rw [getD_eq_of_le xs _ (by omega)]
    nlinarith

/-- The sorted score list: sortedness, nonemptiness, membership. -/
theorem sortedScores_sorted (subs : List Submission) :
    List.Sorted (· ≤ ·) (sortedScores subs) :=
  List.sorted_insertionSort _ _

theorem sortedScores_ne_nil (subs : List Submission) (hne : subs ≠ []) :
    sortedScores subs ≠ [] := by
  have : (sortedScores subs).length = subs.length := by
    simp [sortedScores, List.length_insertionSort]
  intro hnil
  rw [hnil] at this
  exact hne (List.eq_nil_of_length_eq_zero this.symm)

theorem mem_sortedScores (subs : List Submission) {x : ℚ}
    (hx : x ∈ sortedScores subs) : ∃ u ∈ subs, x = (u.score : ℚ) := by
  have hmem : x ∈ subs.map (fun s => (s.score : ℚ)) :=
    ((List.perm_insertionSort _ _).mem_iff).mp hx
  rcases List.mem_map.mp hmem with ⟨u, hu, hxu⟩
  exact ⟨u, hu, hxu.symm⟩

/-- Ordered quintile boundaries. -/
theorem quintileBoundaries_mono (subs : List Submission) (hne : subs ≠ []) :
    (quintileBoundaries subs).b1 ≤ (quintileBoundaries subs).b2 ∧
    (quintileBoundaries subs).b2 ≤ (quintileBoundaries subs).b3 ∧
    (quintileBoundaries subs).b3 ≤ (quintileBoundaries subs).b4 := by
  have hs := sortedScores_sorted subs
  have hn := sortedScores_ne_nil subs hne
  refine ⟨?_, ?_, ?_⟩ <;>
    · apply quantileAt_mono (sortedScores subs) hs hn <;> norm_num

/-- Interval characterisation of tier assignment given ordered
boundaries: buckets are closed at their lower boundary and open above,
the topmost bucket closed below with no upper cutoff. -/
theorem tierOfScore_iff (b : Boundaries)
    (h12 : b.b1 ≤ b.b2) (h23 : b.b2 ≤ b.b3) (h34 : b.b3 ≤ b.b4) (x : ℚ) :
    (tierOfScore b x = Tier.veryLow ↔ x < b.b1) ∧
    (tierOfScore b x = Tier.low ↔ b.b1 ≤ x ∧ x < b.b2) ∧
    (tierOfScore b x = Tier.medium ↔ b.b2 ≤ x ∧ x < b.b3) ∧
    (tierOfScore b x = Tier.high ↔ b.b3 ≤ x ∧ x < b.b4) ∧
    (tierOfScore b x = Tier.veryHigh ↔ b.b4 ≤ x) := by
  unfold tierOfScore
  split_ifs with h1 h2 h3 h4
  · exact ⟨iff_of_true rfl h1,
      iff_of_false (by decide) (fun hc => absurd h1 (not_lt.mpr hc.1)),
      iff_of_false (by decide) (fun hc => absurd h1 (not_lt.mpr (le_trans h12 hc.1))),
      iff_of_false (by decide)
        (fun hc => absurd h1 (not_lt.mpr (le_trans h12 (le_trans h23 hc.1)))),
      iff_of_false (by decide)
        (fun hc => absurd h1 (not_lt.mpr (le_trans h12 (le_trans h23 (le_trans h34 hc)))))⟩
  · exact ⟨iff_of_false (by decide) (fun hc => absurd hc h1),
      iff_of_true rfl ⟨not_lt.mp h1, h2⟩,
      iff_of_false (by decide) (fun hc => absurd h2 (not_lt.mpr hc.1)),
      iff_of_false (by decide) (fun hc => absurd h2 (not_lt.mpr (le_trans h23 hc.1))),
      iff_of_false (by decide)
        (fun hc => absurd h2 (not_lt.mpr (le_trans h23 (le_trans h34 hc))))⟩
  · exact ⟨iff_of_false (by decide) (fun hc => absurd hc h1),
      iff_of_false (by decide) (fun hc => absurd hc.2 h2),
      iff_of_true rfl ⟨not_lt.mp h2, h3⟩,
      iff_of_false (by decide) (fun hc => absurd h3 (not_lt.mpr hc.1)),
      iff_of_false (by decide) (fun hc => absurd h3 (not_lt.mpr (le_trans h34 hc)))⟩
  · exact ⟨iff_of_false (by decide) (fun hc => absurd hc h1),
      iff_of_false (by decide) (fun hc => absurd hc.2 h2),
      iff_of_false (by decide) (fun hc => absurd hc.2 h3),
      iff_of_true rfl ⟨not_lt.mp h3, h4⟩,
      iff_of_false (by decide) (fun hc => absurd h4 (not_lt.mpr hc))⟩
  · exact ⟨iff_of_false (by decide) (fun hc => absurd hc h1),
      iff_of_false (by decide) (fun hc => absurd hc.2 h2),
      iff_of_false (by decide) (fun hc => absurd hc.2 h3),
      iff_of_false (by decide) (fun hc => absurd hc.2 h4),
      iff_of_true rfl (not_lt.mp h4)⟩

/-- **C5.** For every non-empty filtered submission set the quintile
boundaries are computed (by standard linear quantile interpolation) from
the score distribution of that very set and are ordered; each score is
assigned exactly one of the five ordered tiers by its quantile bucket,
buckets being closed at the lower boundary and open at the upper one
except the topmost bucket, which is closed below and contains the
maximum-score submission; and the boundaries are data-dependent
(two different score distributions give different boundaries). -/
theorem engagementStratification_spec :
    (∀ subs : List Submission, subs ≠ [] →
      (quintileBoundaries subs).b1 ≤ (quintileBoundaries subs).b2 ∧
      (quintileBoundaries subs).b2 ≤ (quintileBoundaries subs).b3 ∧
      (quintileBoundaries subs).b3 ≤ (quintileBoundaries subs).b4) ∧
    (∀ subs : List Submission, subs ≠ [] → ∀ x : ℚ,
      (tierOfScore (quintileBoundaries subs) x = Tier.veryLow ↔
        x < (quintileBoundaries subs).b1) ∧
      (tierOfScore (quintileBoundaries subs) x = Tier.low ↔
        (quintileBoundaries subs).b1 ≤ x ∧ x < (quintileBoundaries subs).b2) ∧
      (tierOfScore (quintileBoundaries subs) x = Tier.medium ↔
        (quintileBoundaries subs).b2 ≤ x ∧ x < (quintileBoundaries subs).b3) ∧
      (tierOfScore (quintileBoundaries subs) x = Tier.high ↔
        (quintileBoundaries subs).b3 ≤ x ∧ x < (quintileBoundaries subs).b4) ∧
      (tierOfScore (quintileBoundaries subs) x = Tier.veryHigh ↔
        (quintileBoundaries subs).b4 ≤ x)) ∧
    (∀ (subs : List Submission) (s : Submission), s ∈ subs →
      assignTier subs s = tierOfScore (quintileBoundaries subs) (s.score : ℚ)) ∧
    (∀ (subs : List Submission) (s : Submission), s ∈ subs →
      (∀ u ∈ subs, u.score ≤ s.score) → assignTier subs s = Tier.veryHigh) ∧
    quintileBoundaries
        [sampleSub "a" 0, sampleSub "b" 10, sampleSub "c" 20,
          sampleSub "d" 30, sampleSub "e" 40] ≠
      quintileBoundaries
        [sampleSub "a" 0, sampleSub "b" 1, sampleSub "c" 2,
          sampleSub "d" 3, sampleSub "e" 4] := by
  have hmono := quintileBoundaries_mono
  refine ⟨hmono, ?_, ?_, ?_, ?_⟩
  · intro subs hne x
    obtain ⟨h12, h23, h34⟩ := hmono subs hne
    exact tierOfScore_iff _ h12 h23 h34 x
  · intro subs s _
    rfl
  · intro subs s hs hmax
    have hne : subs ≠ [] := by
      intro hnil; rw [hnil] at hs; cases hs
    obtain ⟨h12, h23, h34⟩ := hmono subs hne
    have hb4 : (quintileBoundaries subs).b4 ≤ (s.score : ℚ) := by
      apply quantileAt_le (sortedScores subs) (sortedScores_sorted subs)
        (sortedScores_ne_nil subs hne)
      · norm_num
      · norm_num
      · intro x hx
        rcases mem_sortedScores subs hx with ⟨u, hu, rfl⟩
        exact_mod_cast hmax u hu
    exact ((tierOfScore_iff _ h12 h23 h34 (s.score : ℚ)).2.2.2.2).mpr hb4
  · intro hc
    have hb2 : (quintileBoundaries
        [sampleSub "a" 0, sampleSub "b" 10, sampleSub "c" 20,
          sampleSub "d" 30, sampleSub "e" 40]).b2 = 16 := by
      norm_num [quintileBoundaries, sortedScores, sampleSub,
        List.insertionSort, List.orderedInsert, quantileAt]
    have hb2' : (quintileBoundaries
        [sampleSub "a" 0, sampleSub "b" 1, sampleSub "c" 2,
          sampleSub "d" 3, sampleSub "e" 4]).b2 = 8/5 := by
      norm_num [quintileBoundaries, sortedScores, sampleSub,
        List.insertionSort, List.orderedInsert, quantileAt]
    rw [hc, hb2'] at hb2
    norm_num at hb2

/-- Witness for `engagementStratification_spec` at a concrete input. -/
theorem engagementStratification_spec_witness :
    assignTier [sampleSub "a" 1, sampleSub "b" 5] (sampleSub "b" 5) = Tier.veryHigh := by
  apply engagementStratification_spec.2.2.2.1 [sampleSub "a" 1, sampleSub "b" 5]
    (sampleSub "b" 5) (by simp)
  intro u hu
  rcases List.mem_cons.mp hu with h | hu2
  · rw [h]; decide
  · rcases List.mem_cons.mp hu2 with h | h
    · rw [h]
    · cases h

/-- Grouping a list by a key ranging over a duplicate-free key list is a
permutation of the original list. -/
theorem flatten_map_filter_perm {α κ : Type} [DecidableEq κ] :
    ∀ (keys : List κ) (xs : List α) (f : α → κ), keys.Nodup →
      (∀ a ∈ xs, f a ∈ keys) →
      ((keys.map (fun k => xs.filter (fun a => decide (f a = k)))).flatten).Perm xs := by
  intro keys
  induction keys with
  | nil =>
    intro xs f _ hmem
    cases xs with
    | nil => simp
    | cons a as => exact absurd (hmem a (List.mem_cons_self a as)) (by simp)
  | cons k ks ih =>
    intro xs f hnd hmem
    have hknotin : k ∉ ks := (List.nodup_cons.mp hnd).1
    have hndks : ks.Nodup := (List.nodup_cons.mp hnd).2
    simp only [List.map_cons, List.flatten_cons]
    have hrest : ∀ k' ∈ ks,
        xs.filter (fun a => decide (f a = k')) =
          (xs.filter (fun a => !decide (f a = k))).filter
            (fun a => decide (f a = k')) := by
      intro k' hk'
      rw [List.filter_filter]
      apply List.filter_congr
      intro a _
      by_cases hfa : f a = k'
      · have hkk : ¬(k' = k) := by
          intro he
          apply hknotin
          rw [← he]
          exact hk'
        have hne : ¬(f a = k) := by rw [hfa]; exact hkk
        simp [hfa, hne, hkk]
      · simp [hfa]
    have hmap : ks.map (fun k' => xs.filter (fun a => decide (f a = k'))) =
        ks.map (fun k' => (xs.filter (fun a => !decide (f a = k))).filter
          (fun a => decide (f a = k'))) := List.map_congr_left hrest
    rw [hmap]
    have hmem' : ∀ a ∈ xs.filter (fun a => !decide (f a = k)), f a ∈ ks := by
      intro a ha
      rcases List.mem_filter.mp ha with ⟨hain, hnk⟩
      have : f a ≠ k := by simpa using hnk
      rcases List.mem_cons.mp (hmem a hain) with h | h
      · exact absurd h this
      · exact h
    have hper := ih (xs.filter (fun a => !decide (f a = k))) f hndks hmem'
    have h1 : (xs.filter (fun a => decide (f a = k)) ++
        (ks.map (fun k' => (xs.filter (fun a => !decide (f a = k))).filter
          (fun a => decide (f a = k')))).flatten).Perm
        (xs.filter (fun a => decide (f a = k)) ++
          xs.filter (fun a => !decide (f a = k))) :=
      List.Perm.append_left _ hper
    exact h1.trans (List.filter_append_perm _ xs)

/-- Every submission is assigned a tier from the fixed tier list. -/
theorem assignTier_mem_allTiers (subs : List Submission) (s : Submission) :
    assignTier subs s ∈ allTiers := by
  cases h : assignTier subs s <;> simp [allTiers]

/-- **C1.** For every filtered submission set (with distinct submission
identifiers) the Stratifier's output is a partition: the output lists
every one of the five fixed tier labels in order (an empty stratum is
present with zero members rather than omitted), the concatenation of all
stratum member lists is a permutation of the filtered identifier set (no
omissions, no duplicates), each filtered submission identifier belongs to
exactly one stratum, and no stratum contains a duplicate identifier. -/
theorem stratifyEngagement_partition :
    ∀ subs : List Submission,
      (subs.map (fun s => s.submission_id)).Nodup →
      ((stratifyEngagement subs).map Prod.fst = tierLabels) ∧
      (((stratifyEngagement subs).map Prod.snd).flatten).Perm
        (subs.map (fun s => s.submission_id)) ∧
      (∀ s ∈ subs,
        (stratifyEngagement subs).countP (fun p => decide (s.submission_id ∈ p.2)) = 1) ∧
      (∀ p ∈ stratifyEngagement subs, p.2.Nodup) := by
  intro subs hnd
  refine ⟨?_, ?_, ?_, ?_⟩
  · rfl
  · have hmm : ((stratifyEngagement subs).map Prod.snd).flatten =
        ((allTiers.map (fun t => subs.filter
          (fun s => decide (assignTier subs s = t)))).map
            (List.map (fun s => s.submission_id))).flatten := by
      simp [stratifyEngagement, List.map_map]
      rfl
    rw [hmm, ← List.map_flatten]
    exact (flatten_map_filter_perm allTiers subs (assignTier subs)
      (by decide) (fun a _ => assignTier_mem_allTiers subs a)).map _
  · intro s hs
    have key : ∀ t : Tier,
        (s.submission_id ∈ (subs.filter
          (fun u => decide (assignTier subs u = t))).map
            (fun u => u.submission_id)) ↔ assignTier subs s = t := by
      intro t
      constructor
      · intro hmem
        rcases List.mem_map.mp hmem with ⟨u, hu, hiu⟩
        rcases List.mem_filter.mp hu with ⟨huin, hut⟩
        have hus : u = s := List.inj_on_of_nodup_map hnd huin hs hiu
        rw [← hus]
        exact of_decide_eq_true hut
      · intro ht
        exact List.mem_map.mpr
          ⟨s, List.mem_filter.mpr ⟨hs, by simp [ht]⟩, rfl⟩
    rw [stratifyEngagement, List.countP_map]
    have hcnt : List.countP ((fun p => decide (s.submission_id ∈ p.2)) ∘ fun t =>
        (tierLabel t, (subs.filter (fun u => decide (assignTier subs u = t))).map
          (fun u => u.submission_id))) allTiers =
        List.countP (fun t => decide (assignTier subs s = t)) allTiers := by
      apply List.countP_congr
      intro t _
      simp only [Function.comp_apply, decide_eq_true_eq]
      exact key t
    rw [hcnt]
    rcases hc : assignTier subs s <;> decide
  · intro p hp
    rcases List.mem_map.mp hp with ⟨t, _, hpt⟩
    rw [← hpt]
    exact hnd.sublist ((List.filter_sublist subs).map _)

/-- Witness for `stratifyEngagement_partition` at a concrete input. -/
theorem stratifyEngagement_partition_witness :
    ((stratifyEngagement [sampleSub "a" 1, sampleSub "b" 5]).map Prod.fst = tierLabels) ∧
    (∀ p ∈ stratifyEngagement [sampleSub "a" 1, sampleSub "b" 5], p.2.Nodup) := by
  have h := stratifyEngagement_partition [sampleSub "a" 1, sampleSub "b" 5] (by decide)
  exact ⟨h.1, h.2.2.2⟩

/-- `perStratumCount` is exactly `ceil(N·F / S)`: the least `m` with
`N·F ≤ S·m`. -/
theorem perStratumCount_ceil (N F S : Nat) (hS : 0 < S) :
    N * F ≤ S * perStratumCount N F S ∧
    ∀ m : Nat, N * F ≤ S * m → perStratumCount N F S ≤ m := by
  have hdm := Nat.div_add_mod (N * F + S - 1) S
  have hr : (N * F + S - 1) % S < S := Nat.mod_lt _ hS
  constructor
  · unfold perStratumCount
    omega
  · intro m hm
    have hexp : S * (m + 1) = S * m + S := by ring
    have hlt : S * perStratumCount N F S < S * (m + 1) := by
      unfold perStratumCount
      omega
    exact Nat.lt_succ_iff.mp (Nat.lt_of_mul_lt_mul_left hlt)

/-- Counterexample to the claim that the total drawn is at most `N·F`:
with `N·F = 3` and two strata of two members each, the per-stratum draw
count is `ceil(3/2) = 2` and `4 > 3` items are drawn in total. -/
theorem oversample_total_counterexample :
    totalDrawn 1 3 [("A", ["a", "b"]), ("B", ["c", "d"])] = 4 ∧
    ¬(totalDrawn 1 3 [("A", ["a", "b"]), ("B", ["c", "d"])] ≤ 1 * 3) := by
  constructor
  · rfl
  · decide

/-- **C2 (amended).** For every target N, factor F and non-empty stratum
list (strata holding distinct identifiers), the per-stratum draw count is
`ceil(N·F / S)` (the least `m` with `N·F ≤ S·m`); the identifiers drawn
within one stratum are pairwise distinct (without replacement); each
stratum contributes `min(ceil(N·F/S), stratum size)` items; and the total
drawn is at most `S · ceil(N·F / S)` — hence at most `N·F` whenever `S`
divides `N·F` (but it may exceed `N·F` otherwise, see the
counterexample). -/
theorem oversample_spec :
    ∀ (N F : Nat) (strata : List (String × List String)),
      0 < strata.length →
      (∀ p ∈ strata, p.2.Nodup) →
      (N * F ≤ strata.length * perStratumCount N F strata.length ∧
        ∀ m : Nat, N * F ≤ strata.length * m →
          perStratumCount N F strata.length ≤ m) ∧
      (∀ p ∈ oversample N F strata, p.2.Nodup) ∧
      (∀ p ∈ strata,
        (p.1, p.2.take (perStratumCount N F strata.length)) ∈ oversample N F strata ∧
        (p.2.take (perStratumCount N F strata.length)).length =
          min (perStratumCount N F strata.length) p.2.length) ∧
      totalDrawn N F strata ≤ strata.length * perStratumCount N F strata.length ∧
      (strata.length ∣ N * F → totalDrawn N F strata ≤ N * F) := by
  intro N F strata hS hnd
  set k := perStratumCount N F strata.length with hk_def
  have htot : totalDrawn N F strata ≤ strata.length * k := by
    have hb : ∀ x ∈ (oversample N F strata).map (fun p => p.2.length), x ≤ k := by
      intro x hx
      rcases List.mem_map.mp hx with ⟨p, hp, hxp⟩
      rcases List.mem_map.mp hp with ⟨q, _, hqp⟩
      rw [← hxp, ← hqp]
      simp only [List.length_take]
      exact min_le_left _ _
    have hsum := List.sum_le_card_nsmul _ k hb
    have hlen : ((oversample N F strata).map (fun p => p.2.length)).length =
        strata.length := by
      simp [oversample]
    rw [hlen, smul_eq_mul] at hsum
    exact hsum
  refine ⟨perStratumCount_ceil N F strata.length hS, ?_, ?_, htot, ?_⟩
  · intro p hp
    rcases List.mem_map.mp hp with ⟨q, hq, hqp⟩
    rw [← hqp]
    exact (hnd q hq).sublist (List.take_sublist _ _)
  · intro p hp
    exact ⟨List.mem_map.mpr ⟨p, hp, rfl⟩, List.length_take _ _⟩
  · rintro ⟨q, hq⟩
    have hkq : k = q := by
      have h1 : strata.length * q + strata.length - 1 =
          strata.length * q + (strata.length - 1) := by omega
      have h2 : (strata.length - 1) / strata.length = 0 :=
        Nat.div_eq_of_lt (by omega)
      rw [hk_def]
      unfold perStratumCount
      rw [hq, h1, Nat.mul_add_div hS, h2, Nat.add_zero]
    calc totalDrawn N F strata ≤ strata.length * k := htot
    _ = strata.length * q := by rw [hkq]
    _ = N * F := hq.symm

/-- Witness for `oversample_spec` at a concrete input. -/
theorem oversample_spec_witness :
    (∀ p ∈ oversample 1 2 [("A", ["a", "b", "c"]), ("B", ["d"])], p.2.Nodup) ∧
    totalDrawn 1 2 [("A", ["a", "b", "c"]), ("B", ["d"])] ≤
      2 * perStratumCount 1 2 2 := by
  have h := oversample_spec 1 2 [("A", ["a", "b", "c"]), ("B", ["d"])]
    (by decide) (by decide)
  exact ⟨h.2.1, h.2.2.2.1⟩

/-- **C8.** A stratum smaller than the requested per-stratum draw count
is not an error: all its members are drawn (the drawn list is the full
member list) and the positive shortfall is recorded in the run
metadata. -/
theorem oversample_shortfall_spec :
    ∀ (N F : Nat) (strata : List (String × List String))
      (label : String) (members : List String),
      (label, members) ∈ strata →
      members.length < perStratumCount N F strata.length →
      (label, members) ∈ oversample N F strata ∧
      (label, perStratumCount N F strata.length - members.length) ∈
        shortfalls N F strata ∧
      0 < perStratumCount N F strata.length - members.length := by
  intro N F strata label members hmem hsmall
  refine ⟨?_, ?_, by omega⟩
  · refine List.mem_map.mpr ⟨(label, members), hmem, ?_⟩
    simp only
    rw [List.take_of_length_le (le_of_lt hsmall)]
  · exact List.mem_map.mpr ⟨(label, members), hmem, rfl⟩

/-- Witness for `oversample_shortfall_spec` at a concrete input. -/
theorem oversample_shortfall_spec_witness :
    ("A", ["x"]) ∈ oversample 1 3 [("A", ["x"])] ∧
    ("A", perStratumCount 1 3 1 - 1) ∈ shortfalls 1 3 [("A", ["x"])] := by
  have h := oversample_shortfall_spec 1 3 [("A", ["x"])] "A" ["x"]
    (by decide) (by decide)
  exact ⟨h.1, h.2.1⟩

/-- **C6.** The Comment Aggregator returns the top K filtered comments of
a submission: the output has `min K count` elements, is ordered by score
descending with ties broken by earliest creation time and then by comment
identifier, consists of filtered comments of the submission, and every
returned comment ranks at least as high as every filtered comment left
out; for scores `[5, 9, 9, 3]` and K = 2 it returns the two score-9
comments in creation-time order; `comment_count` is the number of
filtered comments and `avg_comment_score` their arithmetic mean, with an
absence value (no division) when the count is zero. -/
theorem commentAggregator_spec :
    (∀ (K : Nat) (sid : String) (cs : List Comment),
      (topComments K sid cs).length = min K (commentCount sid cs)) ∧
    (∀ (K : Nat) (sid : String) (cs : List Comment),
      List.Sorted commentBefore (topComments K sid cs)) ∧
    (∀ (K : Nat) (sid : String) (cs : List Comment),
      ∀ c ∈ topComments K sid cs, c ∈ commentsFor sid cs) ∧
    (∀ (K : Nat) (sid : String) (cs : List Comment),
      ∀ x ∈ topComments K sid cs, ∀ y ∈ commentsFor sid cs,
        y ∉ topComments K sid cs → commentBefore x y) ∧
    (∀ (sid : String) (cs : List Comment),
      commentCount sid cs = cs.countP (fun c => decide (c.submission_id = sid))) ∧
    (∀ (sid : String) (cs : List Comment), commentsFor sid cs = [] →
      avgCommentScore sid cs = Option.none) ∧
    (∀ (sid : String) (cs : List Comment), commentsFor sid cs ≠ [] →
      avgCommentScore sid cs =
        some (((commentsFor sid cs).map (fun c => (c.score : ℚ))).sum /
          ((commentsFor sid cs).length : ℚ))) ∧
    (topComments 2 "s1"
        [sampleCom "c1" 0 5, sampleCom "c2" 10 9,
          sampleCom "c3" 20 9, sampleCom "c4" 30 3]).map
      (fun c => c.comment_id) = ["c2", "c3"] := by
  refine ⟨?_, ?_, ?_, ?_, ?_, ?_, ?_, by decide⟩
  · intro K sid cs
    rw [topComments, List.length_take, List.length_insertionSort]
    rfl
  · intro K sid cs
    exact (List.sorted_insertionSort commentBefore (commentsFor sid cs)).sublist
      (List.take_sublist _ _)
  · intro K sid cs c hc
    have hsort : c ∈ List.insertionSort commentBefore (commentsFor sid cs) :=
      (List.take_sublist _ _).subset hc
    exact ((List.perm_insertionSort commentBefore _).mem_iff).mp hsort
  · intro K sid cs x hx y hy hyout
    have hsorted := List.sorted_insertionSort commentBefore (commentsFor sid cs)
    have hsplit := (List.take_append_drop K
      (List.insertionSort commentBefore (commentsFor sid cs))).symm
    rw [List.Sorted, hsplit] at hsorted
    have hcross := (List.pairwise_append.mp hsorted).2.2
    have hymem : y ∈ List.insertionSort commentBefore (commentsFor sid cs) :=
      ((List.perm_insertionSort commentBefore _).mem_iff).mpr hy
    rw [hsplit] at hymem
    rcases List.mem_append.mp hymem with hyt | hyd
    · exact absurd hyt hyout
    · exact hcross x hx y hyd
  · intro sid cs
    rw [commentCount, commentsFor, List.countP_eq_length_filter]
  · intro sid cs hnil
    simp [avgCommentScore, hnil]
  · intro sid cs hnil
    have hlen : (commentsFor sid cs).length ≠ 0 := by
      intro h0
      exact hnil (List.eq_nil_of_length_eq_zero h0)
    simp [avgCommentScore, hlen]

/-- Witness for `commentAggregator_spec` at a concrete input. -/
theorem commentAggregator_spec_witness :
    avgCommentScore "s1" [] = Option.none ∧
    avgCommentScore "s1" [sampleCom "c1" 0 5] =
      some ((((commentsFor "s1" [sampleCom "c1" 0 5]).map
        (fun c => (c.score : ℚ))).sum) /
          ((commentsFor "s1" [sampleCom "c1" 0 5]).length : ℚ)) := by
  constructor
  · exact commentAggregator_spec.2.2.2.2.2.1 "s1" [] rfl
  · exact commentAggregator_spec.2.2.2.2.2.2.1 "s1" [sampleCom "c1" 0 5] (by decide)

/-- Parsing a quoted cell undoes quote doubling. -/
theorem parseQuoted_spec : ∀ (s rest : List Char),
    (rest = [] ∨ ∃ c r2, rest = c :: r2 ∧ c ≠ '"') →
    parseQuoted (dupQuotes s ++ '"' :: rest) = (s, rest) := by
  intro s
  induction s with
  | nil =>
    intro rest hrest
    rcases hrest with rfl | ⟨c, r2, rfl, hc⟩
    · simp [dupQuotes, parseQuoted]
    · simp [dupQuotes, parseQuoted, hc]
  | cons c s2 ih =>
    intro rest hrest
    by_cases hc : c = '"'
    · subst hc
      simp only [dupQuotes, if_pos rfl, List.cons_append]
      simp [parseQuoted, ih rest hrest]
    · simp only [dupQuotes, if_neg hc, List.cons_append]
      rw [parseQuoted.eq_def]
      simp only [if_neg hc]
      simp [ih rest hrest]

/-- Parsing a raw cell stops exactly at the separator. -/
theorem parseRaw_spec : ∀ (s rest : List Char),
    (∀ c ∈ s, ¬(c = ',' ∨ c = '\n')) →
    (rest = [] ∨ ∃ c r2, rest = c :: r2 ∧ (c = ',' ∨ c = '\n')) →
    parseRaw (s ++ rest) = (s, rest) := by
  intro s
  induction s with
  | nil =>
    intro rest _ hrest
    rcases hrest with rfl | ⟨c, r2, rfl, hc⟩
    · simp [parseRaw]
    · simp [parseRaw, hc]
  | cons c s2 ih =>
    intro rest hs hrest
    have hc := hs c (List.mem_cons_self c s2)
    simp [parseRaw, hc,
      ih rest (fun d hd => hs d (List.mem_cons_of_mem c hd)) hrest]

/-- A cell with no special character under `needsQuote = false`. -/
theorem not_needsQuote_forall {s : List Char} (h : needsQuote s = false) :
    ∀ c ∈ s, ¬(c = ',') ∧ ¬(c = '"') ∧ ¬(c = '\n') := by
  intro c hcm
  have hall := List.any_eq_false.mp h c hcm
  simp only [Bool.or_eq_true, beq_iff_eq] at hall
  push_neg at hall
  exact ⟨hall.1.1, hall.1.2, hall.2⟩

/-- Parsing inverts cell rendering. -/
theorem parseField_spec : ∀ (s rest : List Char),
    (rest = [] ∨ ∃ c r2, rest = c :: r2 ∧ (c = ',' ∨ c = '\n')) →
    parseField (renderCell s ++ rest) = (s, rest) := by
  intro s rest hrest
  have hq : rest = [] ∨ ∃ c r2, rest = c :: r2 ∧ c ≠ '"' := by
    rcases hrest with rfl | ⟨c, r2, rfl, hc⟩
    · exact Or.inl rfl
    · exact Or.inr ⟨c, r2, rfl, by rcases hc with rfl | rfl <;> decide⟩
  by_cases hnq : needsQuote s
  · rw [renderCell, if_pos hnq]
    have hshape : ('"' :: (dupQuotes s ++ ['"'])) ++ rest =
        '"' :: (dupQuotes s ++ '"' :: rest) := by simp
    rw [hshape]
    simp only [parseField, if_pos rfl]
    exact parseQuoted_spec s rest hq
  · rw [renderCell, if_neg hnq]
    have hfree := not_needsQuote_forall (Bool.not_eq_true _ ▸ hnq)
    cases s with
    | nil =>
      simp only [List.nil_append]
      rcases hrest with rfl | ⟨c, r2, rfl, hc⟩
      · simp [parseField]
      · have hcq : ¬(c = '"') := by rcases hc with rfl | rfl <;> decide
        simp [parseField, hcq, parseRaw, hc]
    | cons c s2 =>
      have h1 := hfree c (List.mem_cons_self c s2)
      simp only [List.cons_append, parseField, if_neg h1.2.1]
      have hrw := parseRaw_spec (c :: s2) rest
        (fun d hd => by
          have := hfree d hd
          rintro (rfl | rfl)
          · exact this.1 rfl
          · exact this.2.2 rfl) hrest
      simpa [List.cons_append] using hrw

/-- A row has at most one more cell than separators plus content. -/
theorem renderRow_length (r : List (List Char)) :
    r.length ≤ (renderRow r).length + 1 := by
  induction r with
  | nil => simp [renderRow]
  | cons c cs ih =>
    cases cs with
    | nil => simp [renderRow]
    | cons d ds =>
      have hrw : renderRow (c :: d :: ds) =
          renderCell c ++ ',' :: renderRow (d :: ds) := by
        simp [renderRow]
      rw [hrw, List.length_append]
      simp only [List.length_cons] at ih ⊢
      omega

theorem renderRows_length (rows : List (List (List Char))) :
    rows.length ≤ (renderRows rows).length + 1 := by
  induction rows with
  | nil => simp [renderRows]
  | cons r rs ih =>
    cases rs with
    | nil => simp [renderRows]
    | cons a as =>
      have hrw : renderRows (r :: a :: as) =
          renderRow r ++ '\n' :: renderRows (a :: as) := by
        simp [renderRows]
      rw [hrw, List.length_append]
      simp only [List.length_cons] at ih ⊢
      omega

/-- Parsing inverts record rendering, given enough fuel. -/
theorem parseRecordF_spec : ∀ (r : List (List Char)) (fuel : Nat) (rest : List Char),
    r ≠ [] → r.length ≤ fuel →
    (rest = [] ∨ ∃ r2, rest = '\n' :: r2) →
    parseRecordF fuel (renderRow r ++ rest) = (r, rest) := by
  intro r
  induction r with
  | nil => intro fuel rest h; exact absurd rfl h
  | cons f fs ih =>
    intro fuel rest _ hfuel hrest
    cases fuel with
    | zero => simp at hfuel
    | succ n =>
      have hguard : rest = [] ∨ ∃ c r2, rest = c :: r2 ∧ (c = ',' ∨ c = '\n') := by
        rcases hrest with rfl | ⟨r2, rfl⟩
        · exact Or.inl rfl
        · exact Or.inr ⟨'\n', r2, rfl, Or.inr rfl⟩
      cases fs with
      | nil =>
        have hfield := parseField_spec f rest hguard
        simp only [renderRow]
        simp only [parseRecordF, hfield]
        rcases hrest with rfl | ⟨r2, rfl⟩
        · rfl
        · simp
      | cons g gs =>
        have hshape : renderRow (f :: g :: gs) ++ rest =
            renderCell f ++ (',' :: (renderRow (g :: gs) ++ rest)) := by
          simp [renderRow]
        rw [hshape]
        have hfield := parseField_spec f (',' :: (renderRow (g :: gs) ++ rest))
          (Or.inr ⟨',', _, rfl, Or.inl rfl⟩)
        simp only [parseRecordF, hfield]
        have hrec := ih n rest (by simp) (by simp at hfuel ⊢; omega) hrest
        simp [hrec]

/-- Parsing inverts file rendering, given enough fuel. -/
theorem parseFileF_spec : ∀ (rows : List (List (List Char))) (fuel : Nat),
    rows ≠ [] → (∀ r ∈ rows, r ≠ []) → rows.length ≤ fuel →
    parseFileF fuel (renderRows rows) = rows := by
  intro rows
  induction rows with
  | nil => intro fuel h; exact absurd rfl h
  | cons r rs ih =>
    intro fuel _ hne hfuel
    cases fuel with
    | zero => simp at hfuel
    | succ n =>
      cases rs with
      | nil =>
        have hlenr : r.length ≤ (renderRow r).length + 1 := renderRow_length r
        have hrec := parseRecordF_spec r ((renderRow r).length + 1) []
          (hne r (List.mem_cons_self r [])) hlenr (Or.inl rfl)
        rw [List.append_nil] at hrec
        simp only [renderRows, parseFileF, hrec]
      | cons a as =>
        have hshape : renderRows (r :: a :: as) =
            renderRow r ++ '\n' :: renderRows (a :: as) := by
          simp [renderRows]
        rw [hshape]
        have hlenr : r.length ≤
            (renderRow r ++ '\n' :: renderRows (a :: as)).length + 1 := by
          have := renderRow_length r
          rw [List.length_append]
          simp only [List.length_cons]
          omega
        have hrec := parseRecordF_spec r
          ((renderRow r ++ '\n' :: renderRows (a :: as)).length + 1)
          ('\n' :: renderRows (a :: as))
          (hne r (List.mem_cons_self r _)) hlenr
          (Or.inr ⟨renderRows (a :: as), rfl⟩)
        simp only [parseFileF, hrec]
        have := ih n (by simp)
          (fun x hx => hne x (List.mem_cons_of_mem r hx))
          (by simp at hfuel ⊢; omega)
        rw [if_true, this]

theorem mk_toList (s : String) : String.mk s.toList = s := rfl

/-- Round trip of the modelled CSV export for any table with a non-empty
header and non-empty rows. -/
theorem readCsv_toCsv (header : List String) (rows : List (List String))
    (hh : header ≠ []) (hr : ∀ r ∈ rows, r ≠ []) :
    readCsv (toCsv ⟨header, rows⟩ false) = header :: rows := by
  have htab : parseFile (renderRows (((header :: rows).map
      (fun r => r.map (fun s => s.toList))))) =
      (header :: rows).map (fun r => r.map (fun s => s.toList)) := by
    apply parseFileF_spec
    · simp
    · intro r hrm
      rcases List.mem_map.mp hrm with ⟨r0, hr0, hrr⟩
      rcases List.mem_cons.mp hr0 with rfl | hr0r
      · intro hnil
        rw [← hrr] at hnil
        exact hh (List.map_eq_nil_iff.mp hnil)
      · intro hnil
        rw [← hrr] at hnil
        exact hr r0 hr0r (List.map_eq_nil_iff.mp hnil)
    · exact renderRows_length _
  have hmaps2 : ∀ L : List (List String),
      (L.map (fun r => r.map (fun s => s.toList))).map
        (fun r => r.map (fun c => String.mk c)) = L := by
    intro L
    rw [List.map_map]
    have hcomp : ((fun r : List (List Char) => r.map (fun c => String.mk c)) ∘
        (fun r : List String => r.map (fun s => s.toList))) = id := by
      funext r
      simp only [Function.comp_apply]
      rw [List.map_map]
      have h2 : ((fun c => String.mk c) ∘ (fun s : String => s.toList)) = id := by
        funext a
        rfl
      rw [h2, List.map_id]
      rfl
    rw [hcomp, List.map_id]
  unfold readCsv
  rw [show toCsv ⟨header, rows⟩ false =
      renderRows ((header :: rows).map (fun r => r.map (fun s => s.toList)))
    from rfl, htab, hmaps2]

/-- **C10.** The notebook's export writes each table with `index=False`:
the output's first record is exactly the table's seven columns in their
original order (no added index column), and re-reading the exported CSV
yields the header and the rows exactly as written — the export
round-trips, including cells containing commas, quotes or newlines. -/
theorem csvExport_roundTrip :
    subColumns.length = 7 ∧ comColumns.length = 7 ∧
    (∀ rows : List (List String), (∀ r ∈ rows, r.length = 7) →
      readCsv (toCsv ⟨subColumns, rows⟩ false) = subColumns :: rows) ∧
    (∀ rows : List (List String), (∀ r ∈ rows, r.length = 7) →
      readCsv (toCsv ⟨comColumns, rows⟩ false) = comColumns :: rows) := by
  refine ⟨rfl, rfl, ?_, ?_⟩ <;>
  · intro rows hrows
    apply readCsv_toCsv _ _ (by decide)
    intro r hrm hnil
    have h7 := hrows r hrm
    rw [hnil] at h7
    simp at h7

/-- Witness for `csvExport_roundTrip` on a row containing a comma, a
quoted phrase and a newline. -/
theorem csvExport_roundTrip_witness :
    readCsv (toCsv ⟨subColumns,
      [["1", "abc123", "Title, with comma", "He said \"hi\"\nnext line",
        "1667251988", "/r/x", "592"]]⟩ false) =
    subColumns :: [["1", "abc123", "Title, with comma",
      "He said \"hi\"\nnext line", "1667251988", "/r/x", "592"]] := by
  apply csvExport_roundTrip.2.2.1
  intro r hr
  rcases List.mem_singleton.mp hr with rfl
  rfl

/-- Witness for `dominantVerdict_spec` at a concrete input. -/
theorem dominantVerdict_spec_witness :
    dominantVerdict ⟨1, 4, 0, 2, 3⟩ = Verdict.YTA := by
  refine dominantVerdict_spec.2.2.2 ⟨1, 4, 0, 2, 3⟩ Verdict.YTA ?_
  intro w hw
  cases w
  · exact absurd rfl hw
  · decide
  · decide
  · decide
  · decide
